import Mathlib

/-!
# Verification of the ORCA input builder's document assembler

Shallow embedding of the core (pure) part of `src/ORCA-Input-Builder.py`:
the keyword-line builder `build_keywords`, the coordinate reformatter
`format_coords`, and the document assembler `build_input`, together with
the `JOB_KEYWORDS` lookup table.

Python strings are modelled as `List Char`.  The Python string operations
that the source uses are modelled explicitly:

* `str.strip()`  → `strip` (remove leading and trailing whitespace; the
  ASCII whitespace characters are the ones relevant to this program's
  inputs),
* `str.splitlines()` → `splitlines` (the coordinate text comes from a Tk
  text widget, which normalises line endings to `'\n'`, so only `'\n'`
  separators are modelled; like Python, a single trailing line break does
  not produce a trailing empty line),
* `str.isdigit()` → `pyIsDigit` (non-empty and all decimal digits),
* `sep.join(xs)` → `joinSep`,
* `needle in hay` → `containsSub` (substring containment),
* `dict.get(key, '')` → `assocGet` over the association list
  `JOB_KEYWORDS` (dict keys are distinct, and insertion order is kept).

Tk `IntVar`/`BooleanVar` checkbox state (0/1) is modelled as `Bool`,
matching Python truthiness at each use site.
-/

namespace Orca

/-- The characters of a Python string literal. -/
def pys (s : String) : List Char := s.toList

/-- The whitespace characters removed by Python `str.strip()`. -/
def pyIsSpace (c : Char) : Bool :=
  c == ' ' || c == '\t' || c == '\n' || c == '\r' || c == '\x0b' || c == '\x0c'

/-- One decimal digit, as tested by Python `str.isdigit()`. -/
def pyIsDigitChar (c : Char) : Bool :=
  '0' ≤ c && c ≤ '9'

/-- Python `str.isdigit()`: non-empty and composed entirely of digits. -/
def pyIsDigit (s : List Char) : Bool :=
  !s.isEmpty && s.all pyIsDigitChar

/-- Python `str.lstrip()`. -/
def lstrip (s : List Char) : List Char :=
  s.dropWhile pyIsSpace

/-- Python `str.rstrip()`. -/
def rstrip (s : List Char) : List Char :=
  (s.reverse.dropWhile pyIsSpace).reverse

/-- Python `str.strip()`. -/
def strip (s : List Char) : List Char :=
  rstrip (lstrip s)

/-- Split on `'\n'`, keeping empty segments (helper for `splitlines`). -/
def splitOnNl : List Char → List (List Char)
  | [] => [[]]
  | c :: rest =>
    let r := splitOnNl rest
    if c = '\n' then [] :: r else (c :: r.headD []) :: r.tail

/-- Python `str.splitlines()` restricted to `'\n'` line endings: the empty
string has no lines, and a trailing `'\n'` does not open a final empty
line. -/
def splitlines (s : List Char) : List (List Char) :=
  if s.isEmpty then []
  else if s.reverse.head? = some '\n' then splitOnNl s.dropLast
  else splitOnNl s

/-- Python `sep.join(ls)` for a one-character separator. -/
def joinSep (sep : Char) : List (List Char) → List Char
  | [] => []
  | [l] => l
  | l :: m :: ls => l ++ sep :: joinSep sep (m :: ls)

/-- Does `hay` start with `needle`? -/
def startsWith : List Char → List Char → Bool
  | [], _ => true
  | _ :: _, [] => false
  | a :: as, b :: bs => a == b && startsWith as bs

/-- Python `needle in hay`: substring containment. -/
def containsSub (needle : List Char) : List Char → Bool
  | [] => needle.isEmpty
  | c :: rest => startsWith needle (c :: rest) || containsSub needle rest

/-- Python `dict.get(key, '')` on an association list with distinct keys. -/
def assocGet (l : List (List Char × List Char)) (k : List Char) : List Char :=
  match l with
  | [] => []
  | (a, v) :: rest => if k = a then v else assocGet rest k

/-- The `JOB_KEYWORDS` dictionary of the source, in insertion order. -/
def JOB_KEYWORDS : List (List Char × List Char) :=
  [(pys "Single Point (SP)", pys "SP"),
   (pys "Geometry Optimization (OPT)", pys "Opt"),
   (pys "Vibrational Frequency (FREQ)", pys "Freq"),
   (pys "OPT + FREQ", pys "Opt Freq"),
   (pys "Excited States (TD-DFT)", pys "TDDFT"),
   (pys "Scan", pys "Opt Scan"),
   (pys "Transition State (TS)", pys "OptTS"),
   (pys "Solvation", pys "Opt CPCM"),
   (pys "Molecular Mechanics (MM)", pys "MM"),
   (pys "QM/MM", pys "QMMM")]

/-- The flag labels of `extras_vars` in `build_keywords`, in declaration
order. -/
def flagLabels : List (List Char) :=
  [pys "TightSCF", pys "D3BJ", pys "RIJCOSX", pys "Grid5", pys "CPCM",
   pys "VeryTightSCF", pys "SlowConv", pys "DefGrid3", pys "DefGridX"]

/-- The job-settings state read by the assembler: the `StringVar`s and the
0/1 `IntVar` checkboxes of the `extras_vars` list. -/
structure JobOptions where
  job_type : List Char
  method : List Char
  basis : List Char
  charge : List Char
  mult : List Char
  custom_keywords : List Char
  solvent : List Char
  tightscf : Bool
  d3bj : Bool
  rij : Bool
  grid5 : Bool
  cpcm : Bool
  verytightscf : Bool
  slowconv : Bool
  defgrid3 : Bool
  defgridx : Bool

/-- The resource state read by the assembler. -/
structure ResourceOptions where
  maxcore : List Char
  nprocs : List Char
  auto_format_coords : Bool

/-- The list `parts` built inside `build_keywords`: the job keyword, the
enabled flag labels in declaration order, and the stripped custom-keyword
string when non-empty. -/
def partsOf (o : JobOptions) : List (List Char) :=
  [assocGet JOB_KEYWORDS o.job_type]
    ++ (if o.tightscf then [pys "TightSCF"] else [])
    ++ (if o.d3bj then [pys "D3BJ"] else [])
    ++ (if o.rij then [pys "RIJCOSX"] else [])
    ++ (if o.grid5 then [pys "Grid5"] else [])
    ++ (if o.cpcm then [pys "CPCM"] else [])
    ++ (if o.verytightscf then [pys "VeryTightSCF"] else [])
    ++ (if o.slowconv then [pys "SlowConv"] else [])
    ++ (if o.defgrid3 then [pys "DefGrid3"] else [])
    ++ (if o.defgridx then [pys "DefGridX"] else [])
    ++ (if strip o.custom_keywords ≠ [] then [strip o.custom_keywords] else [])

/-- `build_keywords`: `' '.join([p for p in parts if p]).strip()`. -/
def build_keywords (o : JobOptions) : List Char :=
  strip (joinSep ' ' ((partsOf o).filter (fun p => !p.isEmpty)))

/-- `format_coords`: strip the text; on at least two lines whose first
line strips to a digit string, drop the first two lines and re-strip. -/
def format_coords (text : List Char) : List Char :=
  if (strip text).isEmpty then []
  else if 1 < (splitlines (strip text)).length ∧
      pyIsDigit (strip ((splitlines (strip text)).headD [])) = true then
    strip (joinSep '\n' ((splitlines (strip text)).drop 2))
  else strip text

/-- The `header` local of `build_input`: the keyword line and its trailing
blank line. -/
def header_of (o : JobOptions) : List Char :=
  (if build_keywords o ≠ [] then
      pys "! " ++ strip o.method ++ pys " " ++ strip o.basis ++ pys " " ++ build_keywords o
    else pys "! " ++ strip o.method ++ pys " " ++ strip o.basis)
    ++ pys "\n\n"

/-- The `res_block` local of `build_input`. -/
def res_block_of (r : ResourceOptions) : List Char :=
  pys "%maxcore " ++ r.maxcore ++ pys "\n%pal nprocs " ++ r.nprocs ++ pys " end\n\n"

/-- The `cpcm_block` local of `build_input`. -/
def cpcm_block_of (o : JobOptions) : List Char :=
  if containsSub (pys "CPCM") (build_keywords o) = true
      ∨ o.job_type = pys "Solvation" ∨ o.cpcm = true then
    pys "%cpcm\n  smd true\n  SMDsolvent \"" ++ o.solvent ++ pys "\"\nend\n\n"
  else []

/-- The `coords` local of `build_input`: formatted when auto-format is on,
otherwise the raw text stripped. -/
def coords_of (r : ResourceOptions) (coords_text : List Char) : List Char :=
  if r.auto_format_coords then format_coords coords_text else strip coords_text

/-- The `xyz_block` local of `build_input`. -/
def xyz_block_of (o : JobOptions) (r : ResourceOptions) (coords_text : List Char) :
    List Char :=
  if coords_of r coords_text ≠ [] then
    pys "* xyz " ++ o.charge ++ pys " " ++ o.mult ++ pys "\n"
      ++ coords_of r coords_text ++ pys "\n*\n"
  else []

/-- The `custom_block_text` local of `build_input` after its conditional
augmentation. -/
def custom_block_of (custom_text : List Char) : List Char :=
  if strip custom_text ≠ [] then strip custom_text ++ pys "\n\n" else []

/-- `build_input`: the assembled document. -/
def build_input (o : JobOptions) (r : ResourceOptions)
    (coords_text custom_text : List Char) : List Char :=
  header_of o ++ res_block_of r ++ cpcm_block_of o
    ++ custom_block_of custom_text ++ xyz_block_of o r coords_text

/-- The first line of a document (up to the first `'\n'`). -/
def headLine (s : List Char) : List Char :=
  s.takeWhile (fun c => !(c == '\n'))

/-! ## Helper lemmas on `dropWhile`, `takeWhile` and stripping -/

theorem mem_dropWhile_imp {p : Char → Bool} {a : Char} :
    ∀ {l : List Char}, a ∈ List.dropWhile p l → a ∈ l
  | [], h => h
  | c :: t, h => by
    rw [List.dropWhile_cons] at h
    split at h
    · exact List.mem_cons_of_mem _ (mem_dropWhile_imp h)
    · exact h

theorem mem_takeWhile_imp {p : Char → Bool} {a : Char} :
    ∀ {l : List Char}, a ∈ List.takeWhile p l → p a = true
  | [], h => by simp [List.takeWhile] at h
  | c :: t, h => by
    rw [List.takeWhile_cons] at h
    split at h
    next hc =>
      rcases List.mem_cons.mp h with rfl | h2
      · exact hc
      · exact mem_takeWhile_imp h2
    next => simp at h

theorem dropWhile_head_not {p : Char → Bool} :
    ∀ {l : List Char} {c : Char} {t : List Char},
      List.dropWhile p l = c :: t → p c = false
  | [], _, _, h => by simp [List.dropWhile] at h
  | a :: l, c, t, h => by
    rw [List.dropWhile_cons] at h
    split at h
    · exact dropWhile_head_not h
    next ha =>
      injection h with h1 _
      subst h1
      simpa using ha

theorem dropWhile_sat_append {p : Char → Bool} :
    ∀ (w x : List Char), (∀ c ∈ w, p c = true) →
      List.dropWhile p (w ++ x) = List.dropWhile p x
  | [], _, _ => rfl
  | a :: w, x, h => by
    have ha : p a = true := h a (List.mem_cons_self a w)
    rw [List.cons_append, List.dropWhile_cons, if_pos ha]
    exact dropWhile_sat_append w x (fun c hc => h c (List.mem_cons_of_mem _ hc))

theorem dropWhile_append_of_nonsat {p : Char → Bool} :
    ∀ (a b : List Char), (∃ c ∈ a, p c = false) →
      List.dropWhile p (a ++ b) = List.dropWhile p a ++ b
  | [], _, h => by simp at h
  | x :: a, b, h => by
    by_cases hx : p x = true
    · rw [List.cons_append, List.dropWhile_cons, if_pos hx, List.dropWhile_cons, if_pos hx]
      apply dropWhile_append_of_nonsat
      rcases h with ⟨c, hc, hpc⟩
      rcases List.mem_cons.mp hc with rfl | h2
      · rw [hx] at hpc; simp at hpc
      · exact ⟨c, h2, hpc⟩
    · rw [List.cons_append, List.dropWhile_cons, if_neg hx, List.dropWhile_cons, if_neg hx,
        List.cons_append]

theorem takeWhile_sat_append_cons {p : Char → Bool} :
    ∀ {a : List Char} {y : Char} {b : List Char}, (∀ x ∈ a, p x = true) → p y = false →
      List.takeWhile p (a ++ y :: b) = a
  | [], y, b, _, hy => by simp [List.takeWhile_cons, hy]
  | x :: a, y, b, h, hy => by
    rw [List.cons_append, List.takeWhile_cons, if_pos (h x (List.mem_cons_self x a)),
      takeWhile_sat_append_cons (fun z hz => h z (List.mem_cons_of_mem _ hz)) hy]

theorem mem_lstrip {a : Char} {s : List Char} (h : a ∈ lstrip s) : a ∈ s :=
  mem_dropWhile_imp h

theorem mem_rstrip {a : Char} {s : List Char} (h : a ∈ rstrip s) : a ∈ s := by
  unfold rstrip at h
  rw [List.mem_reverse] at h
  have h2 := mem_dropWhile_imp h
  rwa [List.mem_reverse] at h2

theorem mem_strip {a : Char} {s : List Char} (h : a ∈ strip s) : a ∈ s :=
  mem_lstrip (mem_rstrip h)

theorem lstrip_sat_append {w x : List Char} (h : ∀ c ∈ w, pyIsSpace c = true) :
    lstrip (w ++ x) = lstrip x :=
  dropWhile_sat_append w x h

theorem lstrip_append_of_nonsat {a b : List Char} (h : ∃ c ∈ a, pyIsSpace c = false) :
    lstrip (a ++ b) = lstrip a ++ b :=
  dropWhile_append_of_nonsat a b h

theorem rstrip_append_sat {x w : List Char} (h : ∀ c ∈ w, pyIsSpace c = true) :
    rstrip (x ++ w) = rstrip x := by
  unfold rstrip
  rw [List.reverse_append,
    dropWhile_sat_append _ _ (fun c hc => h c (List.mem_reverse.mp hc))]

theorem rstrip_nonsat_append {a b : List Char} (h : ∃ c ∈ b, pyIsSpace c = false) :
    rstrip (a ++ b) = a ++ rstrip b := by
  unfold rstrip
  rw [List.reverse_append, dropWhile_append_of_nonsat _ _ ?hne, List.reverse_append,
    List.reverse_reverse]
  case hne =>
    rcases h with ⟨c, hc, hpc⟩
    exact ⟨c, List.mem_reverse.mpr hc, hpc⟩

theorem lstrip_sat_eq_nil {w : List Char} (h : ∀ c ∈ w, pyIsSpace c = true) :
    lstrip w = [] := by
  have h2 := lstrip_sat_append (x := ([] : List Char)) h
  rw [List.append_nil] at h2
  rw [h2]
  rfl

theorem rstrip_sat_eq_nil {w : List Char} (h : ∀ c ∈ w, pyIsSpace c = true) :
    rstrip w = [] := by
  have h2 := rstrip_append_sat (x := ([] : List Char)) h
  rw [List.nil_append] at h2
  rw [h2]
  rfl

theorem strip_sat_eq_nil {w : List Char} (h : ∀ c ∈ w, pyIsSpace c = true) :
    strip w = [] := by
  unfold strip
  rw [lstrip_sat_eq_nil h]
  rfl

theorem rstrip_decomp (x : List Char) :
    ∃ w, x = rstrip x ++ w ∧ ∀ c ∈ w, pyIsSpace c = true := by
  refine ⟨(x.reverse.takeWhile pyIsSpace).reverse, ?he, ?hw⟩
  case he =>
    conv_lhs => rw [← List.reverse_reverse x,
      ← List.takeWhile_append_dropWhile (p := pyIsSpace) (l := x.reverse)]
    rw [List.reverse_append]
    rfl
  case hw =>
    intro c hc
    rw [List.mem_reverse] at hc
    exact mem_takeWhile_imp hc

theorem rstrip_ne_nil_of_nonsat {x : List Char} (h : ∃ c ∈ x, pyIsSpace c = false) :
    rstrip x ≠ [] := by
  obtain ⟨w, hx, hw⟩ := rstrip_decomp x
  rcases h with ⟨c, hc, hpc⟩
  intro hnil
  rw [hnil, List.nil_append] at hx
  have h2 := hw c (hx ▸ hc)
  rw [hpc] at h2
  exact absurd h2 (by decide)

theorem rstrip_reverse_eq (x : List Char) :
    (rstrip x).reverse = List.dropWhile pyIsSpace x.reverse := by
  unfold rstrip
  rw [List.reverse_reverse]

theorem lstrip_idem (x : List Char) : lstrip (lstrip x) = lstrip x := by
  unfold lstrip
  cases hd : List.dropWhile pyIsSpace x with
  | nil => rfl
  | cons c t =>
    rw [List.dropWhile_cons, if_neg]
    simp [dropWhile_head_not hd]

theorem strip_lstrip (x : List Char) : strip (lstrip x) = strip x := by
  unfold strip
  rw [lstrip_idem]

theorem strip_rstrip (x : List Char) : strip (rstrip x) = strip x := by
  obtain ⟨w, hx, hw⟩ := rstrip_decomp x
  conv_rhs => rw [hx]
  by_cases hcase : ∃ c ∈ rstrip x, pyIsSpace c = false
  · unfold strip
    rw [lstrip_append_of_nonsat hcase, rstrip_append_sat hw]
  · push_neg at hcase
    have hall : ∀ c ∈ rstrip x, pyIsSpace c = true := by
      intro c hc
      have h2 := hcase c hc
      revert h2
      cases pyIsSpace c <;> simp
    rw [strip_sat_eq_nil hall, strip_sat_eq_nil (w := rstrip x ++ w) ?hh]
    case hh =>
      intro c hc
      rcases List.mem_append.mp hc with h2 | h2
      · exact hall c h2
      · exact hw c h2

/-! ## Helper lemmas on line splitting and joining -/

theorem splitOnNl_ne_nil : ∀ (s : List Char), splitOnNl s ≠ []
  | [] => by simp [splitOnNl]
  | c :: rest => by
    simp only [splitOnNl]
    split <;> simp

theorem splitOnNl_no_nl : ∀ {s : List Char}, '\n' ∉ s → splitOnNl s = [s]
  | [], _ => rfl
  | c :: rest, h => by
    have hc : c ≠ '\n' := fun hh => h (hh ▸ List.mem_cons_self c rest)
    have hr : splitOnNl rest = [rest] :=
      splitOnNl_no_nl (fun hh => h (List.mem_cons_of_mem _ hh))
    simp [splitOnNl, if_neg hc, hr]

theorem splitOnNl_append_cons :
    ∀ {a : List Char} (b : List Char), '\n' ∉ a →
      splitOnNl (a ++ '\n' :: b) = a :: splitOnNl b
  | [], b, _ => by simp [splitOnNl]
  | c :: a, b, h => by
    have hc : c ≠ '\n' := fun hh => h (hh ▸ List.mem_cons_self c a)
    have ih := splitOnNl_append_cons (a := a) b (fun hh => h (List.mem_cons_of_mem _ hh))
    simp [splitOnNl, if_neg hc, ih]

theorem joinSep_splitOnNl : ∀ (s : List Char), joinSep '\n' (splitOnNl s) = s
  | [] => rfl
  | c :: rest => by
    have ih := joinSep_splitOnNl rest
    rcases hne : splitOnNl rest with _ | ⟨l, ls⟩
    · exact absurd hne (splitOnNl_ne_nil rest)
    · rw [hne] at ih
      by_cases hc : c = '\n'
      · subst hc
        rw [show splitOnNl ('\n' :: rest) = [] :: splitOnNl rest from by
          simp [splitOnNl], hne]
        cases ls with
        | nil => simpa [joinSep] using ih
        | cons m ls2 => simpa [joinSep] using ih
      · rw [show splitOnNl (c :: rest) = (c :: (splitOnNl rest).headD []) ::
          (splitOnNl rest).tail from by simp [splitOnNl, if_neg hc], hne]
        cases ls with
        | nil =>
          simp only [joinSep] at ih ⊢
          simp [ih]
        | cons m ls2 =>
          simp only [joinSep] at ih ⊢
          simp [ih]

theorem splitOnNl_joinSep :
    ∀ {ls : List (List Char)}, ls ≠ [] → (∀ l ∈ ls, '\n' ∉ l) →
      splitOnNl (joinSep '\n' ls) = ls
  | [], h, _ => absurd rfl h
  | [l], _, h => by
    rw [show joinSep '\n' [l] = l from rfl]
    exact splitOnNl_no_nl (h l (List.mem_cons_self l []))
  | l :: m :: ls, _, h => by
    rw [show joinSep '\n' (l :: m :: ls) = l ++ '\n' :: joinSep '\n' (m :: ls) from rfl,
      splitOnNl_append_cons _ (h l (List.mem_cons_self l (m :: ls))),
      splitOnNl_joinSep (show m :: ls ≠ [] by simp)
        (fun x hx => h x (List.mem_cons_of_mem _ hx))]

theorem mem_joinSep_imp {sep : Char} {a : Char} :
    ∀ {ls : List (List Char)}, a ∈ joinSep sep ls → a = sep ∨ ∃ l ∈ ls, a ∈ l
  | [], h => by simp [joinSep] at h
  | [l], h => Or.inr ⟨l, List.mem_cons_self l [], h⟩
  | l :: m :: ls, h => by
    rw [show joinSep sep (l :: m :: ls) = l ++ sep :: joinSep sep (m :: ls) from rfl] at h
    rcases List.mem_append.mp h with h1 | h1
    · exact Or.inr ⟨l, List.mem_cons_self l (m :: ls), h1⟩
    · rcases List.mem_cons.mp h1 with rfl | h2
      · exact Or.inl rfl
      · rcases mem_joinSep_imp h2 with h3 | ⟨l2, hl2, ha⟩
        · exact Or.inl h3
        · exact Or.inr ⟨l2, List.mem_cons_of_mem _ hl2, ha⟩

theorem head?_append_of_ne_nil {a b : List Char} (h : a ≠ []) :
    (a ++ b).head? = a.head? := by
  cases a with
  | nil => exact absurd rfl h
  | cons c t => rfl

theorem splitlines_eq_splitOnNl {s : List Char} (h1 : s ≠ [])
    (h2 : s.reverse.head? ≠ some '\n') : splitlines s = splitOnNl s := by
  unfold splitlines
  rw [if_neg (by simpa using h1), if_neg h2]

/-! ## Helper lemmas on substrings, the keyword table and `build_keywords` -/

theorem startsWith_append : ∀ (n b : List Char), startsWith n (n ++ b) = true
  | [], _ => rfl
  | c :: n, b => by simp [startsWith, startsWith_append n b]

theorem containsSub_of_startsWith {n hay : List Char} (h : startsWith n hay = true) :
    containsSub n hay = true := by
  cases hay with
  | nil =>
    cases n with
    | nil => rfl
    | cons c t => simp [startsWith] at h
  | cons c rest => simp [containsSub, h]

theorem containsSub_append_self (a n b : List Char) :
    containsSub n (a ++ (n ++ b)) = true := by
  induction a with
  | nil => simpa using containsSub_of_startsWith (startsWith_append n b)
  | cons c a ih =>
    rw [List.cons_append]
    simp [containsSub, ih]

theorem assocGet_cases : ∀ (l : List (List Char × List Char)) (k : List Char),
    assocGet l k = [] ∨ ∃ p ∈ l, assocGet l k = p.2
  | [], _ => Or.inl rfl
  | (a, v) :: rest, k => by
    by_cases hk : k = a
    · exact Or.inr ⟨(a, v), List.mem_cons_self _ _, by simp [assocGet, hk]⟩
    · rcases assocGet_cases rest k with h | ⟨p, hp, he⟩
      · left
        simp [assocGet, hk, h]
      · right
        exact ⟨p, List.mem_cons_of_mem _ hp, by simp [assocGet, hk, he]⟩

theorem not_mem_assocGet {c : Char} {l : List (List Char × List Char)}
    (h : ∀ p ∈ l, c ∉ p.2) (k : List Char) : c ∉ assocGet l k := by
  rcases assocGet_cases l k with he | ⟨p, hp, he⟩
  · rw [he]
    exact List.not_mem_nil c
  · rw [he]
    exact h p hp

theorem assocGet_eq_nil :
    ∀ {l : List (List Char × List Char)} {k : List Char},
      (∀ p ∈ l, p.1 ≠ k) → assocGet l k = []
  | [], _, _ => rfl
  | (a, v) :: rest, k, h => by
    have ha : ¬(k = a) := fun hk => h (a, v) (List.mem_cons_self _ _) hk.symm
    rw [show assocGet ((a, v) :: rest) k = if k = a then v else assocGet rest k from rfl,
      if_neg ha]
    exact assocGet_eq_nil (fun p hp => h p (List.mem_cons_of_mem _ hp))

theorem eq_of_mem_ite_singleton {b : Prop} [Decidable b] {x p : List Char}
    (h : p ∈ (if b then [x] else [])) : p = x := by
  split at h
  · simpa using h
  · simp at h

theorem mem_partsOf {o : JobOptions} {p : List Char} (h : p ∈ partsOf o) :
    p = assocGet JOB_KEYWORDS o.job_type ∨ p ∈ flagLabels ∨
      p = strip o.custom_keywords := by
  unfold partsOf at h
  simp only [List.append_assoc, List.cons_append, List.nil_append, List.mem_cons,
    List.mem_append] at h
  rcases h with h | h | h | h | h | h | h | h | h | h | h
  · exact Or.inl h
  · exact Or.inr (Or.inl (by rw [eq_of_mem_ite_singleton h]; decide))
  · exact Or.inr (Or.inl (by rw [eq_of_mem_ite_singleton h]; decide))
  · exact Or.inr (Or.inl (by rw [eq_of_mem_ite_singleton h]; decide))
  · exact Or.inr (Or.inl (by rw [eq_of_mem_ite_singleton h]; decide))
  · exact Or.inr (Or.inl (by rw [eq_of_mem_ite_singleton h]; decide))
  · exact Or.inr (Or.inl (by rw [eq_of_mem_ite_singleton h]; decide))
  · exact Or.inr (Or.inl (by rw [eq_of_mem_ite_singleton h]; decide))
  · exact Or.inr (Or.inl (by rw [eq_of_mem_ite_singleton h]; decide))
  · exact Or.inr (Or.inl (by rw [eq_of_mem_ite_singleton h]; decide))
  · exact Or.inr (Or.inr (eq_of_mem_ite_singleton h))

theorem not_mem_build_keywords {c : Char} (o : JobOptions)
    (hsp : c ≠ ' ')
    (hjob : ∀ p ∈ JOB_KEYWORDS, c ∉ p.2)
    (hlab : ∀ l ∈ flagLabels, c ∉ l)
    (hcus : c ∉ o.custom_keywords) : c ∉ build_keywords o := by
  intro hc
  have h1 := mem_strip hc
  rcases mem_joinSep_imp h1 with rfl | ⟨l, hl, hcl⟩
  · exact hsp rfl
  · have hl2 : l ∈ partsOf o := List.mem_of_mem_filter hl
    rcases mem_partsOf hl2 with he | he | he
    · exact not_mem_assocGet hjob _ (he ▸ hcl)
    · exact hlab l he hcl
    · exact hcus (mem_strip (he ▸ hcl))

theorem digitChar_not_space {c : Char} (h : pyIsDigitChar c = true) :
    pyIsSpace c = false := by
  cases hcc : pyIsSpace c
  · rfl
  · exfalso
    unfold pyIsSpace at hcc
    simp only [Bool.or_eq_true, beq_iff_eq] at hcc
    unfold pyIsDigitChar at h
    rcases hcc with ((((rfl | rfl) | rfl) | rfl) | rfl) | rfl <;> revert h <;> decide

theorem takeWhile_ne_nl_append {a b : List Char} (h : '\n' ∉ a) :
    List.takeWhile (fun c => !(c == '\n')) (a ++ '\n' :: b) = a := by
  apply takeWhile_sat_append_cons
  · intro x hx
    have hc : x ≠ '\n' := fun hh => h (hh ▸ hx)
    simp [hc]
  · simp

theorem headLine_append {a b : List Char} (h : '\n' ∉ a) :
    headLine (a ++ '\n' :: b) = a :=
  takeWhile_ne_nl_append h

theorem ne_nil_of_left_ne_nil {a : List Char} (b c : List Char) (h : a ≠ []) :
    a ++ b ++ c ≠ [] := by
  intro hh
  rcases List.append_eq_nil.mp hh with ⟨h1, _⟩
  exact h (List.append_eq_nil.mp h1).1

/-! ## Claim C1 -/

/-- The options of the worked example: job "Single Point (SP)", method
B3LYP, basis def2-SVP, only the TightSCF flag, charge "0", mult "1". -/
def c1_job : JobOptions :=
  { job_type := pys "Single Point (SP)", method := pys "B3LYP",
    basis := pys "def2-SVP", charge := pys "0", mult := pys "1",
    custom_keywords := [], solvent := pys "Water",
    tightscf := true, d3bj := false, rij := false, grid5 := false,
    cpcm := false, verytightscf := false, slowconv := false,
    defgrid3 := false, defgridx := false }

/-- The resources of the worked example: maxcore "2000", nprocs "4". -/
def c1_res : ResourceOptions :=
  { maxcore := pys "2000", nprocs := pys "4", auto_format_coords := true }

/-- C1, counterexample: on the example input the assembled document is not
the claimed text `! B3LYP def2-SVP TightSCF` + blank + resource block —
the job keyword `SP` also appears in the header line. -/
theorem c1_counterexample :
    build_input c1_job c1_res [] [] ≠
      pys "! B3LYP def2-SVP TightSCF\n\n%maxcore 2000\n%pal nprocs 4 end\n\n" := by
  decide

/-- C1, amended: on the example input the assembled document is exactly
`! B3LYP def2-SVP SP TightSCF`, a blank line, `%maxcore 2000`,
`%pal nprocs 4 end`, and a blank line — the job keyword `SP` appears
between the basis and the flag token, and there is no solvent, custom, or
coordinate block. -/
theorem c1_assembled_document :
    build_input c1_job c1_res [] [] =
      pys "! B3LYP def2-SVP SP TightSCF\n\n%maxcore 2000\n%pal nprocs 4 end\n\n" := by
  decide

/-! ## Claim C5 -/

/-- C5: formatting is a no-op on already-bare coordinate text — if the
stripped input's first line does not strip to a digit string, or the
stripped input has at most one line, the output is the stripped input;
and an empty or whitespace-only input formats to the empty string. -/
theorem c5_idempotent_on_bare (text : List Char) :
    (strip text = [] → format_coords text = []) ∧
    ((pyIsDigit (strip ((splitlines (strip text)).headD [])) = false ∨
        (splitlines (strip text)).length ≤ 1) →
      format_coords text = strip text) := by
  constructor
  · intro h
    unfold format_coords
    rw [if_pos (by simp [h])]
  · intro h
    unfold format_coords
    by_cases he : (strip text).isEmpty = true
    · rw [if_pos he]
      rw [List.isEmpty_iff] at he
      rw [he]
    · rw [if_neg he, if_neg ?hcond]
      case hcond =>
        rintro ⟨hlen, hdig⟩
        rcases h with h | h
        · rw [h] at hdig
          cases hdig
        · omega

/-- C5, witness: bare two-line coordinate text is passed through
stripped. -/
theorem c5_witness :
    format_coords (pys "H 0.0 0.0 0.0\nO 1.0 0.0 0.0") =
      strip (pys "H 0.0 0.0 0.0\nO 1.0 0.0 0.0") :=
  (c5_idempotent_on_bare (pys "H 0.0 0.0 0.0\nO 1.0 0.0 0.0")).2 (Or.inl (by decide))

/-! ## Claim C8 -/

/-- C8: with auto-format disabled the coordinate text used in assembly is
exactly the raw input stripped of surrounding whitespace, with no
header-line inspection, and (when non-empty) it is embedded verbatim in
the document — so count/comment lines of an extended-form input stay in
the output. -/
theorem c8_raw_coordinates (o : JobOptions) (r : ResourceOptions) (ct cb : List Char)
    (h : r.auto_format_coords = false) :
    coords_of r ct = strip ct ∧
    (strip ct ≠ [] →
      ∃ pre, build_input o r ct cb = pre ++ (strip ct ++ pys "\n*\n")) := by
  have hco : coords_of r ct = strip ct := by
    unfold coords_of
    rw [h]
    simp
  refine ⟨hco, fun hne => ?_⟩
  refine ⟨header_of o ++ res_block_of r ++ cpcm_block_of o ++ custom_block_of cb
    ++ pys "* xyz " ++ o.charge ++ pys " " ++ o.mult ++ pys "\n", ?_⟩
  unfold build_input xyz_block_of
  rw [hco, if_pos hne]
  simp [List.append_assoc]

/-- The resources used by the C8 witness: auto-format off. -/
def c8_res : ResourceOptions :=
  { maxcore := pys "2000", nprocs := pys "4", auto_format_coords := false }

/-- C8, witness: with auto-format off, an extended-form input (count line
`2`, comment line, two atom lines) is used stripped but otherwise
unchanged. -/
theorem c8_witness :
    coords_of c8_res (pys "2\nwater fragment\nH 0 0 0\nO 1 1 1") =
      strip (pys "2\nwater fragment\nH 0 0 0\nO 1 1 1") :=
  (c8_raw_coordinates c1_job c8_res
    (pys "2\nwater fragment\nH 0 0 0\nO 1 1 1") [] rfl).1

/-! ## Claim C9 -/

/-- C9: assembly is a deterministic total function of the four input
groups — equal inputs give byte-identical documents — and a job-type
selector outside the lookup table resolves to the empty keyword rather
than an error. -/
theorem c9_total_deterministic (o : JobOptions) (r : ResourceOptions)
    (ct cb : List Char) :
    (∀ o2 r2 ct2 cb2, o = o2 → r = r2 → ct = ct2 → cb = cb2 →
      build_input o r ct cb = build_input o2 r2 ct2 cb2) ∧
    (∀ k, (∀ p ∈ JOB_KEYWORDS, p.1 ≠ k) → assocGet JOB_KEYWORDS k = []) := by
  constructor
  · intro o2 r2 ct2 cb2 h1 h2 h3 h4
    rw [h1, h2, h3, h4]
  · intro k hk
    exact assocGet_eq_nil hk

/-- C9, witness: an unknown job selector contributes the empty keyword. -/
theorem c9_witness : assocGet JOB_KEYWORDS (pys "Bogus Job") = [] :=
  (c9_total_deterministic c1_job c1_res [] []).2 (pys "Bogus Job") (by decide)

/-! ## Claim C10 -/

/-- C10: the solvent-block trigger on the header keywords is a substring
test — whenever the extra-keyword string contains the character sequence
`CPCM` anywhere, the solvent block is emitted, even with the CPCM flag
disabled and a job type other than "Solvation". -/
theorem c10_substring_trigger (o : JobOptions)
    (_h1 : o.cpcm = false) (_h2 : o.job_type ≠ pys "Solvation")
    (h : containsSub (pys "CPCM") (build_keywords o) = true) :
    cpcm_block_of o =
      pys "%cpcm\n  smd true\n  SMDsolvent \"" ++ o.solvent ++ pys "\"\nend\n\n" ∧
    cpcm_block_of o ≠ [] := by
  have hb : cpcm_block_of o =
      pys "%cpcm\n  smd true\n  SMDsolvent \"" ++ o.solvent ++ pys "\"\nend\n\n" := by
    unfold cpcm_block_of
    rw [if_pos (Or.inl h)]
  refine ⟨hb, ?_⟩
  rw [hb]
  exact ne_nil_of_left_ne_nil _ _ (by decide)

/-- Options for the C10 witness: CPCM flag off, job "Single Point (SP)",
but the custom keyword `NoCPCM` contains `CPCM` as a substring. -/
def c10_job : JobOptions :=
  { job_type := pys "Single Point (SP)", method := pys "B3LYP",
    basis := pys "def2-SVP", charge := pys "0", mult := pys "1",
    custom_keywords := pys "NoCPCM", solvent := pys "Water",
    tightscf := false, d3bj := false, rij := false, grid5 := false,
    cpcm := false, verytightscf := false, slowconv := false,
    defgrid3 := false, defgridx := false }

/-- C10, witness: the custom keyword `NoCPCM` alone triggers the solvent
block. -/
theorem c10_witness :
    cpcm_block_of c10_job =
      pys "%cpcm\n  smd true\n  SMDsolvent \"" ++ pys "Water" ++ pys "\"\nend\n\n" :=
  (c10_substring_trigger c10_job rfl (by decide) (by decide)).1

/-! ## Claim C3 -/

/-- C3: the solvent block is emitted iff the CPCM flag is on, or the
header keywords contain `CPCM` (substring, e.g. via custom keywords), or
the job type is "Solvation"; when emitted it is the `%cpcm` block with the
`smd true` activation line and the solvent name quoted verbatim, so it
contains `SMDsolvent "<solvent>"`. -/
theorem c3_solvent_block (o : JobOptions) (r : ResourceOptions) (ct cb : List Char) :
    (build_input o r ct cb =
      header_of o ++ res_block_of r ++ cpcm_block_of o ++ custom_block_of cb
        ++ xyz_block_of o r ct) ∧
    (cpcm_block_of o ≠ [] ↔
      (o.cpcm = true ∨ containsSub (pys "CPCM") (build_keywords o) = true ∨
        o.job_type = pys "Solvation")) ∧
    (cpcm_block_of o ≠ [] →
      cpcm_block_of o =
        pys "%cpcm\n  smd true\n  SMDsolvent \"" ++ o.solvent ++ pys "\"\nend\n\n" ∧
      containsSub (pys "SMDsolvent \"" ++ o.solvent ++ pys "\"")
        (cpcm_block_of o) = true) := by
  have hne : pys "%cpcm\n  smd true\n  SMDsolvent \"" ++ o.solvent
      ++ pys "\"\nend\n\n" ≠ [] :=
    ne_nil_of_left_ne_nil _ _ (by decide)
  refine ⟨rfl, ?_, ?_⟩
  · unfold cpcm_block_of
    split
    next hcond =>
      constructor
      · intro _
        rcases hcond with h | h | h
        · exact Or.inr (Or.inl h)
        · exact Or.inr (Or.inr h)
        · exact Or.inl h
      · intro _
        exact hne
    next hcond =>
      constructor
      · intro hh
        exact absurd rfl hh
      · intro hh
        refine absurd ?_ hcond
        rcases hh with h | h | h
        · exact Or.inr (Or.inr h)
        · exact Or.inl h
        · exact Or.inr (Or.inl h)
  · intro hb
    have heq : cpcm_block_of o =
        pys "%cpcm\n  smd true\n  SMDsolvent \"" ++ o.solvent ++ pys "\"\nend\n\n" := by
      unfold cpcm_block_of at hb ⊢
      split at hb
      next hcond => rw [if_pos hcond]
      next => exact absurd rfl hb
    refine ⟨heq, ?_⟩
    rw [heq]
    have hfac : pys "%cpcm\n  smd true\n  SMDsolvent \"" ++ o.solvent
        ++ pys "\"\nend\n\n" =
        pys "%cpcm\n  smd true\n  " ++
          ((pys "SMDsolvent \"" ++ o.solvent ++ pys "\"") ++ pys "\nend\n\n") := by
      rw [show pys "%cpcm\n  smd true\n  SMDsolvent \"" =
        pys "%cpcm\n  smd true\n  " ++ pys "SMDsolvent \"" from by decide,
        show pys "\"\nend\n\n" = pys "\"" ++ pys "\nend\n\n" from by decide]
      simp [List.append_assoc]
    rw [hfac]
    exact containsSub_append_self _ _ _

/-- Options for the C3 witness: CPCM flag enabled, solvent "Water", job
"Single Point (SP)". -/
def c3_job : JobOptions :=
  { job_type := pys "Single Point (SP)", method := pys "B3LYP",
    basis := pys "def2-SVP", charge := pys "0", mult := pys "1",
    custom_keywords := [], solvent := pys "Water",
    tightscf := true, d3bj := false, rij := false, grid5 := false,
    cpcm := true, verytightscf := false, slowconv := false,
    defgrid3 := false, defgridx := false }

/-- C3, witness: with the CPCM flag on and solvent "Water" under job
"Single Point (SP)", the emitted block contains `SMDsolvent "Water"`. -/
theorem c3_witness :
    containsSub (pys "SMDsolvent \"" ++ pys "Water" ++ pys "\"")
      (cpcm_block_of c3_job) = true :=
  ((c3_solvent_block c3_job c1_res [] []).2.2 (by decide)).2

/-! ## Claim C6 -/

/-- C6: the document is the concatenation, in strict order, of the header
line block, the resource block, the solvent block, the custom block and
the coordinate block, where each optional segment is empty when absent;
the header and resource segments are never empty; and with non-empty
custom text and empty coordinate text the document ends with the custom
block. -/
theorem c6_assembly_order (o : JobOptions) (r : ResourceOptions) (ct cb : List Char) :
    build_input o r ct cb =
      header_of o ++ res_block_of r ++ cpcm_block_of o ++ custom_block_of cb
        ++ xyz_block_of o r ct ∧
    header_of o ≠ [] ∧ res_block_of r ≠ [] ∧
    (custom_block_of cb = [] ∨ custom_block_of cb = strip cb ++ pys "\n\n") ∧
    (strip cb ≠ [] →
      ∃ pre, build_input o r [] cb = pre ++ (strip cb ++ pys "\n\n")) := by
  refine ⟨rfl, ?h1, ?h2, ?h3, ?h4⟩
  case h1 =>
    intro hh
    unfold header_of at hh
    exact absurd (List.append_eq_nil.mp hh).2 (by decide)
  case h2 =>
    intro hh
    unfold res_block_of at hh
    exact absurd (List.append_eq_nil.mp hh).2 (by decide)
  case h3 =>
    unfold custom_block_of
    split
    · exact Or.inr rfl
    · exact Or.inl rfl
  case h4 =>
    intro hcb
    refine ⟨header_of o ++ res_block_of r ++ cpcm_block_of o, ?_⟩
    have hco : coords_of r [] = [] := by
      unfold coords_of
      split
      · rfl
      · rfl
    have hx : xyz_block_of o r [] = [] := by
      unfold xyz_block_of
      rw [hco]
      simp
    unfold build_input
    rw [hx, List.append_nil]
    unfold custom_block_of
    rw [if_pos hcb]

/-- C6, witness: with custom-block text and no coordinates, the document
ends with the custom block and its blank separator. -/
theorem c6_witness :
    ∃ pre, build_input c1_job c1_res [] (pys "%scf maxiter 300 end") =
      pre ++ (strip (pys "%scf maxiter 300 end") ++ pys "\n\n") :=
  (c6_assembly_order c1_job c1_res [] (pys "%scf maxiter 300 end")).2.2.2.2
    (by decide)

/-! ## Claim C2 -/

/-- Options for the C2 counterexample: job "Geometry Optimization (OPT)"
(keyword `Opt`), no flags, no custom keywords. -/
def c2_job : JobOptions :=
  { job_type := pys "Geometry Optimization (OPT)", method := pys "B3LYP",
    basis := pys "def2-SVP", charge := pys "0", mult := pys "1",
    custom_keywords := [], solvent := pys "Water",
    tightscf := false, d3bj := false, rij := false, grid5 := false,
    cpcm := false, verytightscf := false, slowconv := false,
    defgrid3 := false, defgridx := false }

/-- C2, counterexample: with job keyword `Opt`, method B3LYP and basis
def2-SVP, the header line is not `! Opt B3LYP def2-SVP` as the claimed
token order (job, method, basis, …) would give. -/
theorem c2_counterexample :
    headLine (build_input c2_job c1_res [] []) ≠ pys "! Opt B3LYP def2-SVP" := by
  decide

/-- C2, amended: for inputs whose method, basis and custom-keyword strings
contain no newline, the header line is the marker `! ` followed by the
trimmed method, a space, the trimmed basis, and then — when the
extra-keyword string (job keyword(s) if any, enabled flags in declaration
order, trimmed custom keywords if non-empty, joined with single spaces and
trimmed) is non-empty — a space and that string: the job keyword follows
the basis instead of preceding the method. -/
theorem c2_header_line (o : JobOptions) (r : ResourceOptions) (ct cb : List Char)
    (hm : '\n' ∉ o.method) (hb : '\n' ∉ o.basis) (hk : '\n' ∉ o.custom_keywords) :
    headLine (build_input o r ct cb) =
      pys "! " ++ strip o.method ++ pys " " ++ strip o.basis ++
        (if build_keywords o ≠ [] then pys " " ++ build_keywords o else []) := by
  have hkw : '\n' ∉ build_keywords o :=
    not_mem_build_keywords o (by decide) (by decide) (by decide) hk
  have hM : '\n' ∉ strip o.method := fun hh => hm (mem_strip hh)
  have hB : '\n' ∉ strip o.basis := fun hh => hb (mem_strip hh)
  have hbody : '\n' ∉ (pys "! " ++ strip o.method ++ pys " " ++ strip o.basis ++
      (if build_keywords o ≠ [] then pys " " ++ build_keywords o else [])) := by
    intro hh
    simp only [List.mem_append] at hh
    rcases hh with (((hh | hh) | hh) | hh) | hh
    · revert hh
      decide
    · exact hM hh
    · revert hh
      decide
    · exact hB hh
    · split at hh
      · rcases List.mem_append.mp hh with hh | hh
        · revert hh
          decide
        · exact hkw hh
      · simp at hh
  have hstep : build_input o r ct cb =
      (pys "! " ++ strip o.method ++ pys " " ++ strip o.basis ++
        (if build_keywords o ≠ [] then pys " " ++ build_keywords o else [])) ++
      '\n' :: ('\n' :: (res_block_of r ++ cpcm_block_of o ++ custom_block_of cb
        ++ xyz_block_of o r ct)) := by
    unfold build_input header_of
    rw [show pys "\n\n" = ['\n', '\n'] from rfl]
    split
    · simp [List.append_assoc]
    · simp [List.append_assoc]
  rw [hstep, headLine_append hbody]

/-- C2, witness: the concrete header line for job keyword `Opt`, method
B3LYP, basis def2-SVP and no other tokens. -/
theorem c2_witness :
    headLine (build_input c2_job c1_res [] []) = pys "! B3LYP def2-SVP Opt" := by
  have h := c2_header_line c2_job c1_res [] [] (by decide) (by decide) (by decide)
  rw [h]
  decide

/-! ## Claim C7 -/

/-- C7: the coordinate directive block is present iff the formatted
coordinate text is non-empty; when present it is the `* xyz` line with
charge and multiplicity verbatim, the coordinate lines, and the closing
`*` terminator; with empty coordinate text the document is just the other
blocks, and (as long as no input string itself contains `*`) no `*`
marker appears anywhere in the output. -/
theorem c7_coordinate_block (o : JobOptions) (r : ResourceOptions) (ct cb : List Char) :
    (xyz_block_of o r ct = [] ↔ coords_of r ct = []) ∧
    (coords_of r ct ≠ [] →
      xyz_block_of o r ct =
        pys "* xyz " ++ o.charge ++ pys " " ++ o.mult ++ pys "\n"
          ++ coords_of r ct ++ pys "\n*\n") ∧
    (build_input o r [] cb =
      header_of o ++ res_block_of r ++ cpcm_block_of o ++ custom_block_of cb) ∧
    ('*' ∉ o.method → '*' ∉ o.basis → '*' ∉ o.custom_keywords → '*' ∉ r.maxcore →
      '*' ∉ r.nprocs → '*' ∉ o.solvent → '*' ∉ cb →
      '*' ∉ build_input o r [] cb) := by
  have hco : coords_of r [] = [] := by
    unfold coords_of
    split
    · rfl
    · rfl
  have hx : xyz_block_of o r [] = [] := by
    unfold xyz_block_of
    rw [hco]
    simp
  refine ⟨?_, ?_, ?_, ?_⟩
  · unfold xyz_block_of
    split
    next hne =>
      constructor
      · intro hh
        exact absurd (List.append_eq_nil.mp hh).2 (by decide)
      · intro hh
        exact absurd hh hne
    next hne =>
      constructor
      · intro _
        by_contra hc
        exact hne hc
      · intro _
        rfl
  · intro hne
    unfold xyz_block_of
    rw [if_pos hne]
  · unfold build_input
    rw [hx, List.append_nil]
  · intro h1 h2 h3 h4 h5 h6 h7
    have hkw : '*' ∉ build_keywords o :=
      not_mem_build_keywords o (by decide) (by decide) (by decide) h3
    have hH : '*' ∉ header_of o := by
      unfold header_of
      intro hh
      rcases List.mem_append.mp hh with hh | hh
      · split at hh
        · simp only [List.mem_append] at hh
          rcases hh with ((((hh | hh) | hh) | hh) | hh) | hh
          · revert hh
            decide
          · exact h1 (mem_strip hh)
          · revert hh
            decide
          · exact h2 (mem_strip hh)
          · revert hh
            decide
          · exact hkw hh
        · simp only [List.mem_append] at hh
          rcases hh with ((hh | hh) | hh) | hh
          · revert hh
            decide
          · exact h1 (mem_strip hh)
          · revert hh
            decide
          · exact h2 (mem_strip hh)
      · revert hh
        decide
    have hR : '*' ∉ res_block_of r := by
      unfold res_block_of
      intro hh
      simp only [List.mem_append] at hh
      rcases hh with (((hh | hh) | hh) | hh) | hh
      · revert hh
        decide
      · exact h4 hh
      · revert hh
        decide
      · exact h5 hh
      · revert hh
        decide
    have hC : '*' ∉ cpcm_block_of o := by
      unfold cpcm_block_of
      intro hh
      split at hh
      · simp only [List.mem_append] at hh
        rcases hh with (hh | hh) | hh
        · revert hh
          decide
        · exact h6 hh
        · revert hh
          decide
      · simp at hh
    have hCu : '*' ∉ custom_block_of cb := by
      unfold custom_block_of
      intro hh
      split at hh
      · rcases List.mem_append.mp hh with hh | hh
        · exact h7 (mem_strip hh)
        · revert hh
          decide
      · simp at hh
    intro hh
    unfold build_input at hh
    rw [hx, List.append_nil] at hh
    simp only [List.mem_append] at hh
    rcases hh with ((hh | hh) | hh) | hh
    · exact hH hh
    · exact hR hh
    · exact hC hh
    · exact hCu hh

/-- C7, witness: with empty coordinate text and a sample custom block, the
document carries no `*` marker, and the coordinate block is empty. -/
theorem c7_witness :
    '*' ∉ build_input c1_job c1_res [] (pys "%scf maxiter 300 end") :=
  (c7_coordinate_block c1_job c1_res [] (pys "%scf maxiter 300 end")).2.2.2
    (by decide) (by decide) (by decide) (by decide) (by decide) (by decide)
    (by decide)

/-! ## Claim C4 -/

theorem strip_join_drop_one (commentLine : List Char) (atomLines : List (List Char))
    (hm : '\n' ∉ commentLine) :
    strip (joinSep '\n'
      ((splitOnNl (rstrip (joinSep '\n' (commentLine :: atomLines)))).drop 1)) =
    strip (joinSep '\n' atomLines) := by
  cases atomLines with
  | nil =>
    rw [show joinSep '\n' [commentLine] = commentLine from rfl]
    have hnm : '\n' ∉ rstrip commentLine := fun hh => hm (mem_rstrip hh)
    rw [splitOnNl_no_nl hnm]
    rfl
  | cons a as =>
    rw [show joinSep '\n' (commentLine :: a :: as)
      = commentLine ++ '\n' :: joinSep '\n' (a :: as) from rfl]
    by_cases hA : ∃ c ∈ joinSep '\n' (a :: as), pyIsSpace c = false
    · have hre : rstrip (commentLine ++ '\n' :: joinSep '\n' (a :: as))
          = commentLine ++ '\n' :: rstrip (joinSep '\n' (a :: as)) := by
        rw [show commentLine ++ '\n' :: joinSep '\n' (a :: as)
          = (commentLine ++ ['\n']) ++ joinSep '\n' (a :: as) from by simp,
          rstrip_nonsat_append hA]
        simp
      rw [hre, splitOnNl_append_cons _ hm,
        show (commentLine :: splitOnNl (rstrip (joinSep '\n' (a :: as)))).drop 1
          = splitOnNl (rstrip (joinSep '\n' (a :: as))) from rfl,
        joinSep_splitOnNl]
      exact strip_rstrip _
    · push_neg at hA
      have hallA : ∀ c ∈ joinSep '\n' (a :: as), pyIsSpace c = true := by
        intro c hcm
        have h2 := hA c hcm
        revert h2
        cases pyIsSpace c <;> simp
      have hsat : ∀ c ∈ '\n' :: joinSep '\n' (a :: as), pyIsSpace c = true := by
        intro c hcm
        rcases List.mem_cons.mp hcm with rfl | hcm
        · decide
        · exact hallA c hcm
      rw [rstrip_append_sat hsat]
      have hnm : '\n' ∉ rstrip commentLine := fun hh => hm (mem_rstrip hh)
      rw [splitOnNl_no_nl hnm,
        show ([rstrip commentLine] : List (List Char)).drop 1 = [] from rfl,
        show joinSep '\n' ([] : List (List Char)) = [] from rfl,
        strip_sat_eq_nil hallA]
      rfl

/-- C4, counterexample: taking the count line "3", an empty comment line
and zero atom lines, the code keeps "3" (the trailing whitespace is
stripped away before the header test, so no header is detected) instead
of returning the zero atom lines, i.e. the empty string. -/
theorem c4_counterexample :
    format_coords (joinSep '\n' [pys "3", []]) ≠
      strip (joinSep '\n' ([] : List (List Char))) := by
  decide

/-- C4, amended: for every extended-form coordinate input — a count line
whose trimmed form is all decimal digits, a comment line, and N atom
lines, with the comment line and atom lines together containing at least
one non-whitespace character — auto-formatting returns exactly the N atom
lines with the count and comment lines removed and the remainder
re-trimmed. -/
theorem c4_extended_form (countLine commentLine : List Char)
    (atomLines : List (List Char))
    (hd : pyIsDigit (strip countLine) = true)
    (hc : '\n' ∉ countLine) (hm : '\n' ∉ commentLine)
    (ht : ∃ c ∈ joinSep '\n' (commentLine :: atomLines), pyIsSpace c = false) :
    format_coords (joinSep '\n' (countLine :: commentLine :: atomLines)) =
      strip (joinSep '\n' atomLines) := by
  have hd2 := hd
  unfold pyIsDigit at hd2
  rw [Bool.and_eq_true] at hd2
  obtain ⟨hd3, hd4⟩ := hd2
  have hnwC : ∃ c ∈ countLine, pyIsSpace c = false := by
    rcases hsc : strip countLine with _ | ⟨d, t⟩
    · rw [hsc] at hd3
      simp at hd3
    · have hdd : pyIsDigitChar d = true := by
        have hd5 : (d :: t).all pyIsDigitChar = true := by
          rw [← hsc]
          exact hd4
        exact List.all_eq_true.mp hd5 d (List.mem_cons_self d t)
      refine ⟨d, mem_strip ?_, digitChar_not_space hdd⟩
      rw [hsc]
      exact List.mem_cons_self d t
  have hCnl : '\n' ∉ lstrip countLine := fun hh => hc (mem_lstrip hh)
  have hlT : lstrip (countLine ++ '\n' :: joinSep '\n' (commentLine :: atomLines))
      = lstrip countLine ++ '\n' :: joinSep '\n' (commentLine :: atomLines) :=
    lstrip_append_of_nonsat hnwC
  have hstripT : strip (joinSep '\n' (countLine :: commentLine :: atomLines))
      = (lstrip countLine ++ ['\n'])
        ++ rstrip (joinSep '\n' (commentLine :: atomLines)) := by
    rw [show joinSep '\n' (countLine :: commentLine :: atomLines)
      = countLine ++ '\n' :: joinSep '\n' (commentLine :: atomLines) from rfl]
    unfold strip
    rw [hlT,
      show lstrip countLine ++ '\n' :: joinSep '\n' (commentLine :: atomLines)
        = (lstrip countLine ++ ['\n']) ++ joinSep '\n' (commentLine :: atomLines)
        from by simp,
      rstrip_nonsat_append ht]
  have hrne : rstrip (joinSep '\n' (commentLine :: atomLines)) ≠ [] :=
    rstrip_ne_nil_of_nonsat ht
  have hlast :
      (strip (joinSep '\n' (countLine :: commentLine :: atomLines))).reverse.head?
        ≠ some '\n' := by
    rw [hstripT, List.reverse_append, head?_append_of_ne_nil (by simpa using hrne),
      rstrip_reverse_eq]
    rcases hdw : List.dropWhile pyIsSpace
        (joinSep '\n' (commentLine :: atomLines)).reverse with _ | ⟨c0, t0⟩
    · exfalso
      apply hrne
      unfold rstrip
      rw [hdw]
      rfl
    · intro heq
      have hceq : c0 = '\n' := by simpa using heq
      have hc0 : pyIsSpace c0 = false := dropWhile_head_not hdw
      rw [hceq] at hc0
      exact absurd hc0 (by decide)
  have hTne : strip (joinSep '\n' (countLine :: commentLine :: atomLines)) ≠ [] := by
    rw [hstripT]
    intro hh
    rcases List.append_eq_nil.mp hh with ⟨h1, _⟩
    rcases List.append_eq_nil.mp h1 with ⟨_, h2⟩
    simp at h2
  have hlines : splitlines (strip (joinSep '\n' (countLine :: commentLine :: atomLines)))
      = lstrip countLine
        :: splitOnNl (rstrip (joinSep '\n' (commentLine :: atomLines))) := by
    rw [splitlines_eq_splitOnNl hTne hlast, hstripT,
      show (lstrip countLine ++ ['\n'])
          ++ rstrip (joinSep '\n' (commentLine :: atomLines))
        = lstrip countLine
          ++ '\n' :: rstrip (joinSep '\n' (commentLine :: atomLines)) from by simp]
    exact splitOnNl_append_cons _ hCnl
  unfold format_coords
  rw [if_neg (fun hh => hTne (List.isEmpty_iff.mp hh)), hlines, if_pos ?hcond]
  case hcond =>
    constructor
    · have hpos := List.length_pos.mpr
        (splitOnNl_ne_nil (rstrip (joinSep '\n' (commentLine :: atomLines))))
      simp only [List.length_cons]
      omega
    · rw [show (lstrip countLine
          :: splitOnNl (rstrip (joinSep '\n' (commentLine :: atomLines)))).headD []
        = lstrip countLine from rfl, strip_lstrip]
      exact hd
  rw [show (lstrip countLine
      :: splitOnNl (rstrip (joinSep '\n' (commentLine :: atomLines)))).drop 2
    = (splitOnNl (rstrip (joinSep '\n' (commentLine :: atomLines)))).drop 1 from rfl]
  exact strip_join_drop_one commentLine atomLines hm

/-- C4, witness: a two-atom extended-form input is reduced to exactly its
two atom lines. -/
theorem c4_witness :
    format_coords (joinSep '\n'
        [pys "2", pys "water", pys "H 0 0 0", pys "O 1 1 1"]) =
      strip (joinSep '\n' [pys "H 0 0 0", pys "O 1 1 1"]) :=
  c4_extended_form (pys "2") (pys "water") [pys "H 0 0 0", pys "O 1 1 1"]
    (by decide) (by decide) (by decide) (by decide)

end Orca
